import Mathlib

/-!
# allmark: the file index of `repository/fileindex.go`

A shallow embedding of the file index (`FileIndex`), its path query
(`GetFilesByPath`), its change-callback registry
(`RegisterOnChangeCallback`, `startWatch`, `pauseWatch`, `resumeWatch`) and
the snapshot builder (`getFiles`), followed by the properties of the
specification that are checked against them.

Go strings are embedded as lists of characters (`Str`); for well-formed UTF-8
a prefix test and a slice taken after a prefix give the same on bytes and on
characters. The functions of the Go standard library that the source calls
(`strings.Replace`, `strings.Trim`, `strings.Index`, `strings.HasPrefix`,
`filepath.Join`, `ioutil.ReadDir`) are embedded by what they compute; the
`fmt.Printf` notices change no state and are left out. Handlers are closures
in the source; the embedding keeps them as values of an arbitrary type `H` and
records which of them get invoked.
-/

namespace Allmark

/-- A Go string, as the list of its characters. -/
abbrev Str := List Char

/-! ## The Go `strings` functions used by the source -/

/-- Scan of `strings.Replace` for a non-empty `old`: `skip` counts the
characters of a replaced occurrence that are still to be passed over. -/
def stringsReplace.go (old new : Str) : Nat → Str → Str
  | _, [] => []
  | skip + 1, _ :: s => stringsReplace.go old new skip s
  | 0, c :: s =>
    if old.isPrefixOf (c :: s) then new ++ stringsReplace.go old new (old.length - 1) s
    else c :: stringsReplace.go old new 0 s

/-- Go `strings.Replace(s, old, new, -1)`: every non-overlapping occurrence of
`old`, leftmost first, is replaced by `new`; an empty `old` matches before
every character and at the end. -/
def stringsReplace (s old new : Str) : Str :=
  if old = [] then new ++ s.flatMap (fun c => c :: new)
  else stringsReplace.go old new 0 s

/-- Go `strings.TrimLeft(s, cutset)`. -/
def stringsTrimLeft (s cutset : Str) : Str :=
  s.dropWhile (fun c => decide (c ∈ cutset))

/-- Go `strings.TrimRight(s, cutset)`. -/
def stringsTrimRight (s cutset : Str) : Str :=
  (s.reverse.dropWhile (fun c => decide (c ∈ cutset))).reverse

/-- Go `strings.Trim(s, cutset)`: all leading and trailing characters that
occur in `cutset` are removed. -/
def stringsTrim (s cutset : Str) : Str :=
  stringsTrimRight (stringsTrimLeft s cutset) cutset

/-- Go `strings.Index(s, substr)`: the index of the first occurrence of
`substr` in `s`, or `-1` when there is none. -/
def stringsIndex : Str → Str → Int
  | [], substr => if substr = [] then 0 else -1
  | c :: s, substr =>
    if substr.isPrefixOf (c :: s) then 0
    else
      let r := stringsIndex s substr
      if r < 0 then -1 else r + 1

/-- Go `strings.HasPrefix(s, pre)`. -/
def stringsHasPrefix (s pre : Str) : Bool :=
  decide (pre.length ≤ s.length) && (s.take pre.length == pre)

/-! ## Constants of the packages `path` and `repository` -/

/-- Modelled from the spec: the constant `p.UrlDirectorySeperator` of the
package `path`, which is not part of the sources at hand; the spec gives the
URL-style directory separator as `/`. -/
def UrlDirectorySeperator : Str := ['/']

/-- Modelled from the spec: the constant `p.FilesystemDirectorySeperator` of
the package `path`, which is not part of the sources at hand; it is the
platform filesystem separator as a string. The separator character of the
platform (`'/'`, or `'\\'` on Windows) is the parameter `sep`. -/
def FilesystemDirectorySeperator (sep : Char) : Str := [sep]

/-- Modelled from the spec: the constant `FilesDirectoryName` of the package
`repository`, which is not part of the sources at hand; the spec names the
`files` directory. -/
def FilesDirectoryName : Str := ['f', 'i', 'l', 'e', 's']

/-! ## File and FileIndex -/

/-- Modelled from the spec: the type `File` of the package `repository`, which
is not part of the sources at hand; a file is one filesystem entry, identified
by its path. -/
structure File where
  path : Str
  deriving DecidableEq, Repr

/-- Modelled from the spec: the method `File.Path()`, which is not part of the
sources at hand; it returns the path of the file. -/
def File.Path (file : File) : Str := file.path

/-- Modelled from the spec: the constructor `NewFile(filePath)`, which is not
part of the sources at hand; it makes the file with the given path. -/
def NewFile (filePath : Str) : File := ⟨filePath⟩

/-- The Go map `map[string]H`, as the list of its entries. The order of the
list carries no meaning: a `range` over the map visits the entries in any
order. -/
abbrev GoMap (H : Type) := List (Str × H)

/-- The lookup `v, ok := m[name]`. -/
def GoMap.get {H : Type} (m : GoMap H) (name : Str) : Option H :=
  (m.find? (fun e => e.1 == name)).map Prod.snd

/-- The assignment `m[name] = v`: any entry stored under `name` is replaced. -/
def GoMap.set {H : Type} (m : GoMap H) (name : Str) (v : H) : GoMap H :=
  (name, v) :: m.filter (fun e => !(e.1 == name))

/-- The struct `FileIndex`. `Items` is the swappable snapshot provider;
`onChangeCallbacks` is `none` while the map is nil. -/
structure FileIndex (H : Type) where
  Items : Unit → List File
  path : Str
  onChangeCallbacks : Option (GoMap H)
  itemIsBeingWatched : Bool

/-- The method `FileIndex.Path()`. -/
def FileIndex.Path {H : Type} (fileIndex : FileIndex H) : Str := fileIndex.path

/-- The method `FileIndex.Directory()`. -/
def FileIndex.Directory {H : Type} (fileIndex : FileIndex H) : Str := fileIndex.Path

/-! ## GetFilesByPath -/

/-- The first statements of `GetFilesByPath`: the query path is normalized
(URL separators become filesystem separators, separators are trimmed at both
ends) and then made relative (a leading `FilesDirectoryName` is cut off). The
slice `path[len(FilesDirectoryName):]` is taken only when the name is a prefix
of `path`, so it is within bounds. -/
def normalizeQueryPath (sep : Char) (path : Str) : Str :=
  -- normalize path
  let path := stringsReplace path UrlDirectorySeperator (FilesystemDirectorySeperator sep)
  let path := stringsTrim path (FilesystemDirectorySeperator sep)
  -- make path relative
  if stringsIndex path FilesDirectoryName = 0 then
    path.drop FilesDirectoryName.length
  else
    path

/-- The `for _, file := range fileIndex.Items()` loop of `GetFilesByPath`,
with `matchingFiles` as the accumulator. The slice `filePath[len(indexPath):]`
is taken only when `indexPath` is a prefix of `filePath`, so it is within
bounds. -/
def GetFilesByPath.loop (indexPath path : Str) (condition : File → Bool) :
    List File → List File → List File
  | [], matchingFiles => matchingFiles
  | file :: rest, matchingFiles =>
    let filePath := file.Path
    if stringsIndex filePath indexPath ≠ 0 then
      -- continue
      GetFilesByPath.loop indexPath path condition rest matchingFiles
    else
      let relativeFilePath := filePath.drop indexPath.length
      let fileMatchesPath := stringsHasPrefix relativeFilePath path
      if fileMatchesPath && condition file then
        GetFilesByPath.loop indexPath path condition rest (matchingFiles ++ [file])
      else
        GetFilesByPath.loop indexPath path condition rest matchingFiles

/-- The method `FileIndex.GetFilesByPath(path, condition)`. -/
def GetFilesByPath {H : Type} (sep : Char) (fileIndex : FileIndex H) (path : Str)
    (condition : File → Bool) : List File :=
  let path := normalizeQueryPath sep path
  GetFilesByPath.loop fileIndex.Path path condition (fileIndex.Items ()) []

/-- The index of the scenario: root `/repo`, holding `/repo/a.txt` and
`/repo/sub/b.txt`. -/
def repoIndex : FileIndex Unit where
  Items := fun _ => [NewFile "/repo/a.txt".toList, NewFile "/repo/sub/b.txt".toList]
  path := "/repo".toList
  onChangeCallbacks := none
  itemIsBeingWatched := false

/-- Conversion of URL separators, in the words of the spec: every `/` becomes
the platform separator. -/
def convertSeparators (sep : Char) (q : Str) : Str :=
  q.map (fun c => if c = '/' then sep else c)

/-- The query path after the first two statements of `GetFilesByPath`, in the
words of the spec: separators converted, then trimmed at both ends. -/
def trimmedQueryPath (sep : Char) (q : Str) : Str :=
  stringsTrim (convertSeparators sep q) [sep]

/-- The method `pauseWatch`. -/
def FileIndex.pauseWatch {H : Type} (fileIndex : FileIndex H) : FileIndex H :=
  { fileIndex with itemIsBeingWatched := false }

/-- The method `watchIsPaused`. -/
def FileIndex.watchIsPaused {H : Type} (fileIndex : FileIndex H) : Bool :=
  fileIndex.itemIsBeingWatched == false

/-- The method `resumeWatch`. -/
def FileIndex.resumeWatch {H : Type} (fileIndex : FileIndex H) : FileIndex H :=
  { fileIndex with itemIsBeingWatched := true }

/-- The entries a `range` over `fileIndex.onChangeCallbacks` goes through; a
nil map has none. -/
def FileIndex.callbacks {H : Type} (fileIndex : FileIndex H) : GoMap H :=
  fileIndex.onChangeCallbacks.getD []

/-- A file index with the two counters the embedding keeps next to the struct:
how many times `startWatch` was invoked on the index, and how many background
watch loops (`go func() { for { select ... } }()`) it has spawned. -/
structure IndexState (H : Type) where
  fileIndex : FileIndex H
  startWatchCalls : Nat
  watchLoops : Nat

/-- The method `startWatch`. `newWatcherOk` tells whether
`fsnotify.NewWatcher()` succeeds; when it fails the method returns before the
background loop is spawned. A failure of `watcher.Watch` is only reported. -/
def startWatch {H : Type} (newWatcherOk : Bool) (s : IndexState H) : IndexState H :=
  let s : IndexState H :=
    { s with
      fileIndex := { s.fileIndex with itemIsBeingWatched := true }
      startWatchCalls := s.startWatchCalls + 1 }
  if !newWatcherOk then
    s
  else
    { s with watchLoops := s.watchLoops + 1 }

/-- The method `RegisterOnChangeCallback(name, callbackFunction)`. The check
for a callback already stored under `name` only prints a notice, so it leaves
no trace here; the assignment after it is unconditional. -/
def RegisterOnChangeCallback {H : Type} (newWatcherOk : Bool) (name : Str)
    (callbackFunction : H) (s : IndexState H) : IndexState H :=
  let s : IndexState H :=
    if s.fileIndex.onChangeCallbacks.isNone then
      -- initialize on first use, start watching for changes
      startWatch newWatcherOk
        { s with fileIndex := { s.fileIndex with onChangeCallbacks := some [] } }
    else
      s
  { s with
    fileIndex :=
      { s.fileIndex with
        onChangeCallbacks := some (GoMap.set s.fileIndex.callbacks name callbackFunction) } }

/-- A sequence of `RegisterOnChangeCallback` calls, each with the outcome of
`fsnotify.NewWatcher()` at that time, the name and the handler. -/
def registerAll {H : Type} (s : IndexState H) (calls : List (Bool × Str × H)) : IndexState H :=
  calls.foldl (fun s call => RegisterOnChangeCallback call.1 call.2.1 call.2.2 s) s

/-- The state after a call of `pauseWatch()`. -/
def IndexState.paused {H : Type} (s : IndexState H) : IndexState H :=
  { s with fileIndex := s.fileIndex.pauseWatch }

/-- The state after a call of `resumeWatch()`. -/
def IndexState.resumed {H : Type} (s : IndexState H) : IndexState H :=
  { s with fileIndex := s.fileIndex.resumeWatch }

/-- One call `callback(fileIndex)` made by the watch loop. -/
structure Invocation (H : Type) where
  name : Str
  callback : H
  argument : FileIndex H

/-- What can happen to a file index. -/
inductive Action (H : Type) where
  | register (newWatcherOk : Bool) (name : Str) (callbackFunction : H)
  | pauseWatch
  | resumeWatch
  | event
  | watchError

/-- The step relation of a file index: `Step s a calls s'` says that action `a`
takes state `s` to `s'` and that the watch loop makes the invocations `calls`
on the way. An event or a watch error is taken by the background loop of
`startWatch`, so there has to be one. On an event the loop calls every entry of
the registry unless the watch is paused; the order of a `range` over a Go map
is not fixed, so `order` is any arrangement of the entries. What a handler does
when called is outside the state kept here. -/
inductive Step {H : Type} :
    IndexState H → Action H → List (Invocation H) → IndexState H → Prop
  | register (s : IndexState H) (newWatcherOk : Bool) (name : Str) (callbackFunction : H) :
      Step s (.register newWatcherOk name callbackFunction) []
        (RegisterOnChangeCallback newWatcherOk name callbackFunction s)
  | pauseWatch (s : IndexState H) :
      Step s .pauseWatch [] s.paused
  | resumeWatch (s : IndexState H) :
      Step s .resumeWatch [] s.resumed
  | eventPaused (s : IndexState H) :
      0 < s.watchLoops → s.fileIndex.watchIsPaused = true → Step s .event [] s
  | eventDispatch (s : IndexState H) (order : List (Str × H)) :
      0 < s.watchLoops → s.fileIndex.watchIsPaused = false →
      order.Perm s.fileIndex.callbacks →
      Step s .event (order.map (fun e => ⟨e.1, e.2, s.fileIndex⟩)) s
  | watchError (s : IndexState H) :
      0 < s.watchLoops → Step s .watchError [] s

/-- A file index as a struct literal leaves it: nil registry, not watched. -/
def freshIndex (H : Type) (directory : Str) (items : Unit → List File) : IndexState H where
  fileIndex :=
    { Items := items, path := directory, onChangeCallbacks := none, itemIsBeingWatched := false }
  startWatchCalls := 0
  watchLoops := 0

/-- A watched index with two registered handlers. -/
def watchedIndex : IndexState Nat :=
  registerAll (freshIndex Nat "/repo".toList (fun _ => []))
    [(true, "reindex".toList, 1), (true, "rebuild".toList, 2)]

/-- The index after registering handler `1` and then handler `2` under the
same name. -/
def twiceRegistered : IndexState Nat :=
  RegisterOnChangeCallback true "rebuild".toList 2
    (RegisterOnChangeCallback true "rebuild".toList 1
      (freshIndex Nat "/repo".toList (fun _ => [])))

/-! ## The Go `filepath` functions used by the source -/

/-- The elements of a path: the pieces between separators, empty ones
included. -/
def pathElements (sep : Char) : Str → List Str
  | [] => [[]]
  | c :: s =>
    if c = sep then [] :: pathElements sep s
    else
      match pathElements sep s with
      | [] => [[c]]
      | e :: es => (c :: e) :: es

/-- One element in `filepath.Clean`, with `out` the elements kept so far: an
empty element and `.` are dropped; `..` removes the element before it, is kept
when there is nothing to remove and the path is not rooted, and is dropped at
the root; any other element is kept. -/
def cleanElement (rooted : Bool) (out : List Str) (element : Str) : List Str :=
  if element = [] ∨ element = ['.'] then out
  else if element = ['.', '.'] then
    match out.getLast? with
    | some last => if last = ['.', '.'] then out ++ [element] else out.dropLast
    | none => if rooted then out else out ++ [element]
  else out ++ [element]

/-- The elements `filepath.Clean` keeps of a path. -/
def cleanElements (sep : Char) (path : Str) : List Str :=
  (pathElements sep path).foldl (cleanElement (path.head? == some sep)) []

/-- Go `strings.Join(elems, sep)`. -/
def stringsJoin : List Str → Str → Str
  | [], _ => []
  | [e], _ => e
  | e :: e' :: es, sep => e ++ sep ++ stringsJoin (e' :: es) sep

/-- A cleaned path written out: the root separator of a rooted path, then the
elements with separators between them. -/
def joinElements (sep : Char) (rooted : Bool) (elements : List Str) : Str :=
  (if rooted then [sep] else []) ++ stringsJoin elements [sep]

/-- Go `filepath.Clean(path)` on a platform without volume names: the shortest
path equivalent to `path` by purely lexical processing; the empty result is
written `.`. -/
def filepathClean (sep : Char) (path : Str) : Str :=
  if path = [] then ['.']
  else
    let cleaned := joinElements sep (path.head? == some sep) (cleanElements sep path)
    if cleaned = [] then ['.'] else cleaned

/-- Go `filepath.Join(dir, name)`: the elements from the first non-empty one
on are joined with the separator and the result is cleaned; of empty elements
only, the result is the empty string. -/
def filepathJoin (sep : Char) (dir name : Str) : Str :=
  if dir ≠ [] then filepathClean sep (dir ++ sep :: name)
  else if name ≠ [] then filepathClean sep name
  else []

/-- What `filepath.Join(dir, name)` puts before a name that a directory
listing can hold: the cleaned `dir`, with a separator after it unless it is
empty or the root. -/
def joinPrefix (sep : Char) (dir : Str) : Str :=
  if dir = [] then []
  else joinElements sep (dir.head? == some sep) (cleanElements sep dir ++ [[]])

/-- An element that `filepath.Clean` keeps as it is: not empty, not `.` and
not `..`. -/
def realElement (e : Str) : Prop := e ≠ [] ∧ e ≠ ['.'] ∧ e ≠ ['.', '.']

/-- The shape of the elements `filepath.Clean` has kept at any time: `..`
elements first, none of them in a rooted path, and real elements after them. -/
def CleanStack (rooted : Bool) (out : List Str) : Prop :=
  ∃ k normal, out = List.replicate k ['.', '.'] ++ normal
    ∧ (rooted = true → k = 0) ∧ ∀ e ∈ normal, realElement e

/-! ## The snapshot builder -/

/-- A filesystem entry as `ioutil.ReadDir` lists it (`os.FileInfo`), with what
lies below it: a directory carries its entries in listing order and whether it
can be read; `ioutil.ReadDir` fails on a directory that cannot be read and on
an entry that is not a directory. -/
inductive DirEntry where
  | file (name : Str)
  | dir (name : Str) (readable : Bool) (entries : List DirEntry)

/-- The method `Name()` of a directory entry. -/
def DirEntry.Name : DirEntry → Str
  | .file name => name
  | .dir name _ _ => name

/-- The method `IsDir()` of a directory entry. -/
def DirEntry.IsDir : DirEntry → Bool
  | .file _ => false
  | .dir _ _ _ => true

mutual
/-- The function `getFiles(directory)`; the entry is what the filesystem holds
at the path `directory`, which decides the outcome of
`ioutil.ReadDir(directory)`. -/
def getFiles (sep : Char) : Str → DirEntry → List File
  | _, .file _ => []
  | _, .dir _ false _ => []
  | directory, .dir _ true filesDirectoryEntries =>
    getFiles.loop sep directory filesDirectoryEntries []
/-- The `for _, directoryEntry := range filesDirectoryEntries` loop of
`getFiles`, with `files` as the accumulator. -/
def getFiles.loop (sep : Char) : Str → List DirEntry → List File → List File
  | _, [], files => files
  | directory, directoryEntry :: rest, files =>
    if directoryEntry.IsDir then
      -- recurse
      let subDirectory := filepathJoin sep directory directoryEntry.Name
      getFiles.loop sep directory rest (files ++ getFiles sep subDirectory directoryEntry)
    else
      -- append new file
      let filePath := filepathJoin sep directory directoryEntry.Name
      getFiles.loop sep directory rest (files ++ [NewFile filePath])
end

/-- The function `NewFileIndex(directory)`, the entry being what the
filesystem holds at `directory`. `closure` stands for the function literal
`func(fileIndex) { fileIndex.Items = getFilesFunc }`, given the provider it
assigns. -/
def NewFileIndex {H : Type} (sep : Char) (newWatcherOk : Bool)
    (closure : (Unit → List File) → H) (directory : Str) (entry : DirEntry) : IndexState H :=
  let getFilesFunc : Unit → List File := fun _ =>
    let files := getFiles sep directory entry
    files
  let fileIndex : FileIndex H :=
    { Items := getFilesFunc
      path := directory
      onChangeCallbacks := none
      itemIsBeingWatched := false }
  RegisterOnChangeCallback newWatcherOk "ReindexOnFilesystemEvent".toList (closure getFilesFunc)
    { fileIndex := fileIndex, startWatchCalls := 0, watchLoops := 0 }

/-! ## The filesystem tree, in the words of the spec -/

/-- The entries directly inside an entry. -/
def DirEntry.entries : DirEntry → List DirEntry
  | .file _ => []
  | .dir _ _ entries => entries

/-- What one directory entry contributes to the result of `getFiles` on the
directory that lists it, in the words of the spec: the file entry itself for a
file, `getFiles(sub)` for a sub-directory. -/
def entryFiles (sep : Char) (directory : Str) (entry : DirEntry) : List File :=
  if entry.IsDir then getFiles sep (filepathJoin sep directory entry.Name) entry
  else [NewFile (filepathJoin sep directory entry.Name)]

mutual
/-- Every entry below the entry at path `directory`, at any depth, each with
its full path, in the order of a depth-first walk. -/
def entriesBelow (sep : Char) : Str → DirEntry → List (Str × DirEntry)
  | _, .file _ => []
  | directory, .dir _ _ entries => entriesBelow.list sep directory entries
/-- The entries of a listing found at path `directory`, each followed by the
entries below it. -/
def entriesBelow.list (sep : Char) : Str → List DirEntry → List (Str × DirEntry)
  | _, [] => []
  | directory, entry :: rest =>
    (filepathJoin sep directory entry.Name, entry)
      :: entriesBelow sep (filepathJoin sep directory entry.Name) entry
      ++ entriesBelow.list sep directory rest
end

mutual
/-- A property holds of an entry and of every entry below it. -/
def DirEntry.all (p : DirEntry → Bool) : DirEntry → Bool
  | .file name => p (.file name)
  | .dir name readable entries => p (.dir name readable entries) && DirEntry.all.list p entries
/-- A property holds of every entry of a listing and of every entry below. -/
def DirEntry.all.list (p : DirEntry → Bool) : List DirEntry → Bool
  | [] => true
  | entry :: rest => DirEntry.all p entry && DirEntry.all.list p rest
end

/-- The entry can be read as a directory or is not a directory. -/
def DirEntry.readableDir : DirEntry → Bool
  | .file _ => true
  | .dir _ readable _ => readable

/-- The names of the entries directly inside the entry are distinct. -/
def DirEntry.distinctNames (entry : DirEntry) : Bool :=
  decide (entry.entries.map DirEntry.Name).Nodup

/-- A name a directory listing can hold: not empty, without a separator, and
neither `.` nor `..`. -/
def validName (sep : Char) (name : Str) : Bool :=
  decide (name ≠ [] ∧ sep ∉ name ∧ name ≠ ['.'] ∧ name ≠ ['.', '.'])

/-- The names of the entries directly inside the entry are names a directory
listing can hold. -/
def DirEntry.validNames (sep : Char) (entry : DirEntry) : Bool :=
  entry.entries.all (fun e => validName sep e.Name)

mutual
/-- The number of entries below an entry, at any depth, that are not
directories. -/
def countFiles : DirEntry → Nat
  | .file _ => 0
  | .dir _ _ entries => countFiles.list entries
/-- The number of entries of a listing, and below them, that are not
directories. -/
def countFiles.list : List DirEntry → Nat
  | [] => 0
  | entry :: rest => (if entry.IsDir then countFiles entry else 1) + countFiles.list rest
end

/-- The tree of the scenario under `/repo`, with an empty directory and a
directory below a directory added. -/
def repoTree : DirEntry :=
  .dir "repo".toList true
    [ .file "a.txt".toList,
      .dir "empty".toList true [],
      .dir "sub".toList true
        [ .file "b.txt".toList,
          .dir "deep".toList true [.file "c.txt".toList, .file "a.txt".toList] ] ]

/-- The tree of the scenario with directories that cannot be read. -/
def lockedTree : DirEntry :=
  .dir "repo".toList true
    [ .file "a.txt".toList,
      .dir "locked".toList false [.file "hidden.txt".toList],
      .dir "sub".toList true
        [ .dir "private".toList false [.file "key".toList],
          .file "b.txt".toList ] ]

/-! ## Properties of the string functions and of GetFilesByPath -/

theorem stringsIndex_nonneg_or (s substr : Str) :
    stringsIndex s substr = -1 ∨ 0 ≤ stringsIndex s substr := by
  induction s with
  | nil => unfold stringsIndex; split <;> simp
  | cons c s ih =>
    unfold stringsIndex
    split
    · simp
    · simp only
      split
      · simp
      · right; omega

theorem stringsIndex_eq_zero_iff (s substr : Str) :
    stringsIndex s substr = 0 ↔ substr <+: s := by
  cases s with
  | nil =>
    unfold stringsIndex
    by_cases h : substr = []
    · simp [h]
    · simp [h]
  | cons c s =>
    unfold stringsIndex
    by_cases h : substr.isPrefixOf (c :: s) = true
    · simp only [h, if_true, true_iff]
      exact List.isPrefixOf_iff_prefix.mp h
    · simp only [h, Bool.false_eq_true, if_false]
      have hn : ¬ substr <+: c :: s := fun hp => h (List.isPrefixOf_iff_prefix.mpr hp)
      constructor
      · intro h0
        exfalso
        split at h0
        · omega
        · rcases stringsIndex_nonneg_or s substr with h1 | h1 <;> omega
      · intro hp; exact absurd hp hn

theorem stringsHasPrefix_iff (s pre : Str) :
    stringsHasPrefix s pre = true ↔ pre <+: s := by
  unfold stringsHasPrefix
  simp only [Bool.and_eq_true, decide_eq_true_eq, beq_iff_eq]
  constructor
  · rintro ⟨_, h⟩
    exact h ▸ List.take_prefix _ _
  · intro h
    refine ⟨h.length_le, ?_⟩
    exact List.prefix_iff_eq_take.mp h ▸ rfl

theorem stringsReplace_go_single (a b : Char) (s : Str) :
    stringsReplace.go [a] [b] 0 s = s.map (fun c => if c = a then b else c) := by
  induction s with
  | nil => rfl
  | cons c s ih =>
    unfold stringsReplace.go
    by_cases h : c = a
    · subst h
      simp [ih]
    · have h' : ¬ a = c := fun e => h e.symm
      simp [h, h', ih]

theorem stringsReplace_separators (sep : Char) (q : Str) :
    stringsReplace q UrlDirectorySeperator (FilesystemDirectorySeperator sep)
      = convertSeparators sep q := by
  unfold stringsReplace UrlDirectorySeperator FilesystemDirectorySeperator convertSeparators
  simp [stringsReplace_go_single]

theorem convertSeparators_idem (sep : Char) (q : Str) :
    convertSeparators sep (convertSeparators sep q) = convertSeparators sep q := by
  unfold convertSeparators
  rw [List.map_map]
  apply List.map_congr_left
  intro c _
  by_cases h : c = '/'
  · by_cases h2 : sep = '/' <;> simp [h, h2]
  · simp [h]

theorem convertSeparators_append (sep : Char) (a b : Str) :
    convertSeparators sep (a ++ b) = convertSeparators sep a ++ convertSeparators sep b := by
  simp [convertSeparators]

theorem loop_eq_filter (indexPath path : Str) (condition : File → Bool) (items acc : List File) :
    GetFilesByPath.loop indexPath path condition items acc
      = acc ++ items.filter (fun f => decide (indexPath <+: f.Path)
          && decide (path <+: f.Path.drop indexPath.length) && condition f) := by
  induction items generalizing acc with
  | nil => simp [GetFilesByPath.loop]
  | cons f rest ih =>
    unfold GetFilesByPath.loop
    simp only [ne_eq, stringsIndex_eq_zero_iff]
    by_cases h1 : indexPath <+: f.Path
    · by_cases h2 : (stringsHasPrefix (f.Path.drop indexPath.length) path && condition f) = true
      · have h2' := h2
        rw [Bool.and_eq_true, stringsHasPrefix_iff] at h2'
        simp only [h1, not_true_eq_false, if_false, h2, if_true]
        rw [ih, List.filter_cons]
        simp [h1, h2'.1, h2'.2]
      · have h2' := h2
        rw [Bool.and_eq_true, stringsHasPrefix_iff, not_and] at h2'
        simp only [h1, not_true_eq_false, if_false, h2]
        rw [List.filter_cons]
        by_cases h3 : path <+: f.Path.drop indexPath.length
        · simp [h1, h3, h2' h3, ih]
        · simp [h1, h3, ih]
    · simp only [h1, not_false_eq_true, if_true]
      rw [ih, List.filter_cons]
      simp [h1]

theorem dropWhile_head_not {α : Type} (p : α → Bool) (l : List α) (a : α)
    (h : (l.dropWhile p).head? = some a) : p a = false := by
  induction l with
  | nil => simp at h
  | cons x xs ih =>
    rw [List.dropWhile_cons] at h
    by_cases hx : p x = true
    · rw [if_pos hx] at h; exact ih h
    · rw [if_neg hx] at h
      simp only [List.head?_cons, Option.some.injEq] at h
      subst h; simpa using hx

theorem dropWhile_append_of_mem {α : Type} (p : α → Bool) (l m : List α)
    (h : ∃ x ∈ l, p x = false) : (l ++ m).dropWhile p = l.dropWhile p ++ m := by
  induction l with
  | nil => simp at h
  | cons x xs ih =>
    rw [List.cons_append, List.dropWhile_cons, List.dropWhile_cons]
    by_cases hx : p x = true
    · rw [if_pos hx, if_pos hx]
      apply ih
      obtain ⟨y, hy, hpy⟩ := h
      rcases List.mem_cons.mp hy with rfl | hy
      · rw [hx] at hpy; cases hpy
      · exact ⟨y, hy, hpy⟩
    · rw [if_neg hx, if_neg hx]; rfl

theorem stringsTrimLeft_head (s cutset : Str) (c : Char) (hc : c ∈ cutset) :
    (stringsTrimLeft s cutset).head? ≠ some c := by
  intro h
  have := dropWhile_head_not _ _ _ h
  simp [hc] at this

theorem stringsTrimRight_getLast (s cutset : Str) (c : Char) (hc : c ∈ cutset) :
    (stringsTrimRight s cutset).getLast? ≠ some c := by
  intro h
  unfold stringsTrimRight at h
  rw [List.getLast?_reverse] at h
  have := dropWhile_head_not _ _ _ h
  simp [hc] at this

theorem stringsTrimRight_pre (s cutset : Str) : stringsTrimRight s cutset <+: s := by
  unfold stringsTrimRight
  have h := List.dropWhile_suffix (fun c => decide (c ∈ cutset)) (l := s.reverse)
  have h2 := List.reverse_prefix.mpr h
  rwa [List.reverse_reverse] at h2

theorem head?_of_pre {α : Type} {t s : List α} (h : t <+: s) (ht : t ≠ []) :
    t.head? = s.head? := by
  obtain ⟨r, rfl⟩ := h
  cases t with
  | nil => exact absurd rfl ht
  | cons a t => rfl

theorem stringsTrim_head (s cutset : Str) (c : Char) (hc : c ∈ cutset) :
    (stringsTrim s cutset).head? ≠ some c := by
  unfold stringsTrim
  by_cases he : stringsTrimRight (stringsTrimLeft s cutset) cutset = []
  · rw [he]; simp
  · rw [head?_of_pre (stringsTrimRight_pre _ _) he]
    exact stringsTrimLeft_head s cutset c hc

theorem stringsTrim_getLast (s cutset : Str) (c : Char) (hc : c ∈ cutset) :
    (stringsTrim s cutset).getLast? ≠ some c :=
  stringsTrimRight_getLast _ _ _ hc

theorem getLast?_drop_ne {α : Type} (l : List α) (n : Nat) (a : α)
    (h : l.getLast? ≠ some a) : (l.drop n).getLast? ≠ some a := by
  intro hd
  apply h
  have hs : l.drop n <:+ l := List.drop_suffix n l
  obtain ⟨r, hr⟩ := hs
  have hne : l.drop n ≠ [] := by intro e; rw [e] at hd; simp at hd
  rw [← hr, List.getLast?_append_of_ne_nil _ hne]
  exact hd

theorem normalizeQueryPath_eq (sep : Char) (q : Str) :
    normalizeQueryPath sep q =
      if FilesDirectoryName <+: trimmedQueryPath sep q
      then (trimmedQueryPath sep q).drop FilesDirectoryName.length
      else trimmedQueryPath sep q := by
  unfold normalizeQueryPath trimmedQueryPath
  simp only [stringsReplace_separators, stringsIndex_eq_zero_iff]
  rfl

theorem GetFilesByPath_eq_filter {H : Type} (sep : Char) (fileIndex : FileIndex H) (q : Str)
    (c : File → Bool) :
    GetFilesByPath sep fileIndex q c
      = (fileIndex.Items ()).filter (fun f => decide (fileIndex.Path <+: f.Path)
          && decide (normalizeQueryPath sep q <+: f.Path.drop fileIndex.Path.length) && c f) := by
  unfold GetFilesByPath
  simp only [loop_eq_filter, List.nil_append]

/-- C3. `GetFilesByPath(q, c)` returns, in the order of `Items()`, exactly the
files of `Items()` whose path starts with the root path of the index, whose
path after the root path starts with the normalized `q`, and for which `c`
holds; with the always-true predicate these are the items whose root-stripped
path starts with the normalized `q`; when no file qualifies the result is the
empty sequence. -/
theorem GetFilesByPath_filters_items {H : Type} (sep : Char) (fileIndex : FileIndex H)
    (q : Str) (c : File → Bool) :
    GetFilesByPath sep fileIndex q c
        = (fileIndex.Items ()).filter (fun f => decide (fileIndex.Path <+: f.Path)
            && decide (normalizeQueryPath sep q <+: f.Path.drop fileIndex.Path.length) && c f)
      ∧ GetFilesByPath sep fileIndex q (fun _ => true)
        = (fileIndex.Items ()).filter (fun f => decide (fileIndex.Path <+: f.Path
            ∧ normalizeQueryPath sep q <+: f.Path.drop fileIndex.Path.length))
      ∧ ((∀ f ∈ fileIndex.Items (), ¬ (fileIndex.Path <+: f.Path
            ∧ normalizeQueryPath sep q <+: f.Path.drop fileIndex.Path.length ∧ c f = true))
          → GetFilesByPath sep fileIndex q c = []) := by
  refine ⟨GetFilesByPath_eq_filter sep fileIndex q c, ?_, ?_⟩
  · rw [GetFilesByPath_eq_filter]
    apply List.filter_congr
    intro f _
    simp
  · intro h
    rw [GetFilesByPath_eq_filter, List.filter_eq_nil_iff]
    intro f hf hq
    apply h f hf
    simpa [and_assoc] using hq

theorem GetFilesByPath_filters_items_witness :
    GetFilesByPath '/' repoIndex "sub/c".toList (fun _ => true) = [] :=
  (GetFilesByPath_filters_items '/' repoIndex "sub/c".toList (fun _ => true)).2.2 (by decide)

theorem normalizeQueryPath_convert (sep : Char) (q : Str) :
    normalizeQueryPath sep (convertSeparators sep q) = normalizeQueryPath sep q := by
  rw [normalizeQueryPath_eq, normalizeQueryPath_eq]
  unfold trimmedQueryPath
  rw [convertSeparators_idem]

theorem convertSeparators_sep (sep : Char) (a b : Str) :
    convertSeparators sep (a ++ '/' :: b) = convertSeparators sep (a ++ sep :: b) := by
  rw [convertSeparators_append, convertSeparators_append]
  congr 1
  unfold convertSeparators
  by_cases h : sep = '/' <;> simp [h]

/-- C6. `GetFilesByPath(q, c)` equals `GetFilesByPath(q', c)` for `q'` the
query `q` with every `/` replaced by the platform separator; in particular a
query `a/b` and the query `a<sep>b` give the same result. -/
theorem GetFilesByPath_separator_conversion {H : Type} (sep : Char) (fileIndex : FileIndex H)
    (q : Str) (c : File → Bool) :
    GetFilesByPath sep fileIndex q c = GetFilesByPath sep fileIndex (convertSeparators sep q) c
      ∧ ∀ a b : Str, GetFilesByPath sep fileIndex (a ++ '/' :: b) c
          = GetFilesByPath sep fileIndex (a ++ sep :: b) c := by
  constructor
  · unfold GetFilesByPath
    rw [normalizeQueryPath_convert]
  · intro a b
    unfold GetFilesByPath
    have h : normalizeQueryPath sep (a ++ '/' :: b) = normalizeQueryPath sep (a ++ sep :: b) := by
      rw [normalizeQueryPath_eq, normalizeQueryPath_eq]
      unfold trimmedQueryPath
      rw [convertSeparators_sep]
    rw [h]

/-- C1, counterexample. On the index of the scenario (root `/repo`, items
`/repo/a.txt` and `/repo/sub/b.txt`) the query `sub` with the always-true
predicate returns no file, so not the one file `/repo/sub/b.txt`. -/
theorem GetFilesByPath_sub_not_found :
    GetFilesByPath '/' repoIndex "sub".toList (fun _ => true) = []
      ∧ GetFilesByPath '/' repoIndex "sub".toList (fun _ => true)
          ≠ [NewFile "/repo/sub/b.txt".toList] := by
  decide

/-- C1, amended. For a file index whose root path is `/repo` and whose items
are the files `/repo/a.txt` and `/repo/sub/b.txt`, the query `sub` with the
always-true predicate returns the empty sequence: the path of `b.txt` after the
root is `/sub/b.txt`, which keeps its leading separator. The query `files/sub`,
normalized to `/sub`, returns exactly the file `/repo/sub/b.txt`. -/
theorem GetFilesByPath_scenario {H : Type} (fileIndex : FileIndex H)
    (hroot : fileIndex.Path = "/repo".toList)
    (hitems : fileIndex.Items ()
      = [NewFile "/repo/a.txt".toList, NewFile "/repo/sub/b.txt".toList]) :
    GetFilesByPath '/' fileIndex "sub".toList (fun _ => true) = []
      ∧ GetFilesByPath '/' fileIndex "files/sub".toList (fun _ => true)
          = [NewFile "/repo/sub/b.txt".toList] := by
  unfold GetFilesByPath
  rw [hroot, hitems]
  decide

theorem GetFilesByPath_scenario_witness :
    GetFilesByPath '/' repoIndex "files/sub".toList (fun _ => true)
      = [NewFile "/repo/sub/b.txt".toList] :=
  (GetFilesByPath_scenario repoIndex rfl rfl).2

theorem trimmedQueryPath_files (sep : Char) (r : Str) (hsep : sep ∉ FilesDirectoryName)
    (hr : ∃ c ∈ convertSeparators sep r, c ≠ sep) :
    trimmedQueryPath sep (FilesDirectoryName ++ sep :: r)
      = FilesDirectoryName ++ sep :: stringsTrimRight (convertSeparators sep r) [sep] := by
  have hconv : convertSeparators sep (FilesDirectoryName ++ sep :: r)
      = FilesDirectoryName ++ sep :: convertSeparators sep r := by
    rw [convertSeparators_append]
    congr 1
    unfold convertSeparators
    by_cases h : sep = '/' <;> simp [h]
  have hf : sep ≠ 'f' := by
    intro e; apply hsep; rw [e]; simp [FilesDirectoryName]
  have hleft : stringsTrimLeft (FilesDirectoryName ++ sep :: convertSeparators sep r) [sep]
      = FilesDirectoryName ++ sep :: convertSeparators sep r := by
    unfold stringsTrimLeft FilesDirectoryName
    rw [List.cons_append, List.dropWhile_cons]
    have : ¬ 'f' = sep := fun e => hf e.symm
    simp [this]
  unfold trimmedQueryPath stringsTrim
  rw [hconv, hleft]
  unfold stringsTrimRight
  rw [List.reverse_append, List.reverse_cons, List.append_assoc,
    dropWhile_append_of_mem, List.reverse_append, List.reverse_append, List.reverse_reverse]
  · simp
  · obtain ⟨c, hc, hne⟩ := hr
    exact ⟨c, List.mem_reverse.mpr hc, by simp [hne]⟩

theorem dropWhile_length_le_append {α : Type} (p : α → Bool) (u w : List α) :
    (u.dropWhile p).length ≤ ((u ++ w).dropWhile p).length := by
  induction u with
  | nil => simp
  | cons x u ih =>
    rw [List.cons_append, List.dropWhile_cons, List.dropWhile_cons]
    by_cases hx : p x = true
    · rw [if_pos hx, if_pos hx]; exact ih
    · rw [if_neg hx, if_neg hx]; simp

theorem stringsTrim_length_le (s cutset : Str) :
    (stringsTrim s cutset).length ≤ (stringsTrimRight s cutset).length := by
  unfold stringsTrim stringsTrimRight
  rw [List.length_reverse, List.length_reverse]
  obtain ⟨w, hw⟩ : stringsTrimLeft s cutset <:+ s := List.dropWhile_suffix _
  have hrev : s.reverse = (stringsTrimLeft s cutset).reverse ++ w.reverse := by
    rw [← List.reverse_append, hw]
  rw [hrev]
  exact dropWhile_length_le_append _ _ _

theorem normalizeQueryPath_length_le (sep : Char) (q : Str) :
    (normalizeQueryPath sep q).length
      ≤ (stringsTrimRight (convertSeparators sep q) [sep]).length := by
  have h1 : (normalizeQueryPath sep q).length ≤ (trimmedQueryPath sep q).length := by
    rw [normalizeQueryPath_eq]
    split
    · rw [List.length_drop]; omega
    · exact Nat.le_refl _
  exact Nat.le_trans h1 (stringsTrim_length_le _ _)

theorem normalizeQueryPath_url_separator (sep : Char) (a b : Str) :
    normalizeQueryPath sep (a ++ '/' :: b) = normalizeQueryPath sep (a ++ sep :: b) := by
  rw [normalizeQueryPath_eq, normalizeQueryPath_eq]
  unfold trimmedQueryPath
  rw [convertSeparators_sep]

/-- C7, amended. The normalized query path never ends with the separator. It
does not start with the separator when the converted and trimmed query does
not start with the files directory name. When the name is cut off, what
follows it stays as it is, its separator included: a query made of the files
directory name, a separator (the platform one or the URL one) and a remainder
`r` that is not made of separators only is normalized to the platform
separator followed by `r` with its separators converted and its trailing
separators removed (`files/img` gives `/img`), and this is not the normalized
path of the query `r` alone. The platform separator is taken not to be a
letter of the files directory name. -/
theorem normalizeQueryPath_separators (sep : Char) (q : Str) :
    (normalizeQueryPath sep q).getLast? ≠ some sep
      ∧ (¬ FilesDirectoryName <+: trimmedQueryPath sep q →
          (normalizeQueryPath sep q).head? ≠ some sep)
      ∧ (∀ (s : Char) (r : Str), (s = sep ∨ s = '/') → q = FilesDirectoryName ++ s :: r →
          sep ∉ FilesDirectoryName → (∃ c ∈ convertSeparators sep r, c ≠ sep) →
          normalizeQueryPath sep q = sep :: stringsTrimRight (convertSeparators sep r) [sep]
            ∧ (normalizeQueryPath sep q).head? = some sep
            ∧ normalizeQueryPath sep q ≠ normalizeQueryPath sep r) := by
  refine ⟨?_, ?_, ?_⟩
  · rw [normalizeQueryPath_eq]
    have ht : (trimmedQueryPath sep q).getLast? ≠ some sep :=
      stringsTrim_getLast _ _ _ (List.mem_singleton.mpr rfl)
    split
    · exact getLast?_drop_ne _ _ _ ht
    · exact ht
  · intro h
    rw [normalizeQueryPath_eq, if_neg h]
    exact stringsTrim_head _ _ _ (List.mem_singleton.mpr rfl)
  · intro s r hs hq hsep hr
    have heq : normalizeQueryPath sep q
        = sep :: stringsTrimRight (convertSeparators sep r) [sep] := by
      have hplat : normalizeQueryPath sep (FilesDirectoryName ++ sep :: r)
          = sep :: stringsTrimRight (convertSeparators sep r) [sep] := by
        rw [normalizeQueryPath_eq, trimmedQueryPath_files sep r hsep hr,
          if_pos (List.prefix_append _ _), List.drop_left]
      rcases hs with hs | hs
      · rw [hq, hs]; exact hplat
      · rw [hq, hs, normalizeQueryPath_url_separator]; exact hplat
    refine ⟨heq, by rw [heq]; rfl, ?_⟩
    intro h
    have hlen := normalizeQueryPath_length_le sep r
    rw [← h, heq, List.length_cons] at hlen
    omega

theorem normalizeQueryPath_separators_witness :
    (normalizeQueryPath '/' "files/img".toList = "/img".toList
        ∧ (normalizeQueryPath '/' "files/img".toList).head? = some '/'
        ∧ normalizeQueryPath '/' "files/img".toList ≠ normalizeQueryPath '/' "img".toList)
      ∧ (normalizeQueryPath '\\' "files/img".toList = "\\img".toList
        ∧ (normalizeQueryPath '\\' "files/img".toList).head? = some '\\'
        ∧ normalizeQueryPath '\\' "files/img".toList
            ≠ normalizeQueryPath '\\' "img".toList)
      ∧ (normalizeQueryPath '/' "/img/".toList).head? ≠ some '/' :=
  ⟨(normalizeQueryPath_separators '/' "files/img".toList).2.2 '/' "img".toList
      (Or.inl rfl) rfl (by decide) ⟨'i', by decide, by decide⟩,
    (normalizeQueryPath_separators '\\' "files/img".toList).2.2 '/' "img".toList
      (Or.inr rfl) rfl (by decide) ⟨'i', by decide, by decide⟩,
    (normalizeQueryPath_separators '/' "/img/".toList).2.1 (by decide)⟩

/-- C7, counterexample. The query `files/img` is normalized to `/img`: the
result starts with the separator, is not `img`, and is not the normalized path
of the query `img`. -/
theorem normalizeQueryPath_files_img :
    (normalizeQueryPath '/' "files/img".toList).head? = some '/'
      ∧ normalizeQueryPath '/' "files/img".toList ≠ "img".toList
      ∧ normalizeQueryPath '/' "files/img".toList ≠ normalizeQueryPath '/' "img".toList := by
  decide

/-- C8, amended. The files directory name is cut off whenever the converted
and trimmed query starts with its characters, whether or not they are a whole
path segment; for every query whose converted and trimmed form does not start
with these characters, the normalized path is the converted and trimmed query,
with nothing else removed. -/
theorem normalizeQueryPath_strips_literal (sep : Char) (q : Str) :
    (¬ FilesDirectoryName <+: trimmedQueryPath sep q →
        normalizeQueryPath sep q = trimmedQueryPath sep q)
      ∧ (FilesDirectoryName <+: trimmedQueryPath sep q →
        FilesDirectoryName ++ normalizeQueryPath sep q = trimmedQueryPath sep q) := by
  constructor
  · intro h
    rw [normalizeQueryPath_eq, if_neg h]
  · intro h
    rw [normalizeQueryPath_eq, if_pos h]
    obtain ⟨rest, hrest⟩ := h
    rw [← hrest, List.drop_left]

theorem normalizeQueryPath_strips_literal_witness :
    normalizeQueryPath '/' "/film/x/".toList = "film/x".toList
      ∧ FilesDirectoryName ++ normalizeQueryPath '/' "filesystem/x".toList
          = "filesystem/x".toList :=
  ⟨((normalizeQueryPath_strips_literal '/' "/film/x/".toList).1 (by decide)).trans
      (by decide),
    ((normalizeQueryPath_strips_literal '/' "filesystem/x".toList).2 (by decide)).trans
      (by decide)⟩

/-- C8, counterexample. The first segment of `filesystem/x` is `filesystem`,
not the files directory name, yet the query is normalized to `ystem/x`, not to
the query with separators converted and trimmed. -/
theorem normalizeQueryPath_filesystem :
    (pathElements '/' "filesystem/x".toList).head? = some "filesystem".toList
      ∧ "filesystem".toList ≠ FilesDirectoryName
      ∧ normalizeQueryPath '/' "filesystem/x".toList = "ystem/x".toList
      ∧ normalizeQueryPath '/' "filesystem/x".toList
          ≠ stringsTrim (convertSeparators '/' "filesystem/x".toList) ['/'] := by
  decide

theorem RegisterOnChangeCallback_isSome {H : Type} (ok : Bool) (name : Str) (h : H)
    (s : IndexState H) :
    (RegisterOnChangeCallback ok name h s).fileIndex.onChangeCallbacks.isSome = true := by
  simp [RegisterOnChangeCallback]

theorem RegisterOnChangeCallback_allocated {H : Type} (ok : Bool) (name : Str) (h : H)
    (s : IndexState H) (hs : s.fileIndex.onChangeCallbacks.isSome = true) :
    (RegisterOnChangeCallback ok name h s).startWatchCalls = s.startWatchCalls
      ∧ (RegisterOnChangeCallback ok name h s).watchLoops = s.watchLoops := by
  have : s.fileIndex.onChangeCallbacks.isNone = false := by
    cases hc : s.fileIndex.onChangeCallbacks with
    | none => rw [hc] at hs; cases hs
    | some m => rfl
  simp [RegisterOnChangeCallback, this]

theorem registerAll_allocated {H : Type} (calls : List (Bool × Str × H)) (s : IndexState H)
    (hs : s.fileIndex.onChangeCallbacks.isSome = true) :
    (registerAll s calls).startWatchCalls = s.startWatchCalls
      ∧ (registerAll s calls).watchLoops = s.watchLoops := by
  induction calls generalizing s with
  | nil => exact ⟨rfl, rfl⟩
  | cons c cs ih =>
    have h1 := RegisterOnChangeCallback_allocated c.1 c.2.1 c.2.2 s hs
    have h2 := ih (RegisterOnChangeCallback c.1 c.2.1 c.2.2 s)
      (RegisterOnChangeCallback_isSome _ _ _ _)
    unfold registerAll at h2 ⊢
    rw [List.foldl_cons]
    exact ⟨h2.1.trans h1.1, h2.2.trans h1.2⟩

theorem RegisterOnChangeCallback_first {H : Type} (ok : Bool) (name : Str) (h : H)
    (s : IndexState H) (hs : s.fileIndex.onChangeCallbacks = none) :
    (RegisterOnChangeCallback ok name h s).startWatchCalls = s.startWatchCalls + 1
      ∧ (RegisterOnChangeCallback ok name h s).watchLoops
          = s.watchLoops + (if ok then 1 else 0) := by
  cases ok <;> simp [RegisterOnChangeCallback, startWatch, hs]

/-- C10. For a file index whose registry is not allocated yet and any
non-empty sequence of `RegisterOnChangeCallback` calls, `startWatch` has been
invoked exactly once after the first call and still exactly once after all of
them, so at most one watch loop has been started. -/
theorem startWatch_once {H : Type} (s : IndexState H)
    (hs : s.fileIndex.onChangeCallbacks = none) (first : Bool × Str × H)
    (later : List (Bool × Str × H)) :
    (registerAll s [first]).startWatchCalls = s.startWatchCalls + 1
      ∧ (registerAll s (first :: later)).startWatchCalls = s.startWatchCalls + 1
      ∧ (registerAll s (first :: later)).watchLoops ≤ s.watchLoops + 1 := by
  have h1 := RegisterOnChangeCallback_first first.1 first.2.1 first.2.2 s hs
  have h2 := registerAll_allocated later (RegisterOnChangeCallback first.1 first.2.1 first.2.2 s)
    (RegisterOnChangeCallback_isSome _ _ _ _)
  refine ⟨h1.1, ?_, ?_⟩
  · show (registerAll (RegisterOnChangeCallback first.1 first.2.1 first.2.2 s)
      later).startWatchCalls = _
    rw [h2.1, h1.1]
  · show (registerAll (RegisterOnChangeCallback first.1 first.2.1 first.2.2 s)
      later).watchLoops ≤ _
    rw [h2.2, h1.2]
    split <;> omega

theorem startWatch_once_witness :
    (registerAll (freshIndex Nat "/repo".toList (fun _ => []))
        [(true, "a".toList, 1), (true, "a".toList, 2), (false, "b".toList, 3)]).startWatchCalls
      = 1 :=
  (startWatch_once (freshIndex Nat "/repo".toList (fun _ => [])) rfl (true, "a".toList, 1)
    [(true, "a".toList, 2), (false, "b".toList, 3)]).2.1

theorem Step_event_inv {H : Type} {s s' : IndexState H} {calls : List (Invocation H)}
    (h : Step s .event calls s') :
    s' = s ∧ 0 < s.watchLoops
      ∧ (s.fileIndex.watchIsPaused = true → calls = [])
      ∧ (s.fileIndex.watchIsPaused = false →
          (calls.map (fun i => (i.name, i.callback))).Perm s.fileIndex.callbacks
            ∧ ∀ i ∈ calls, i.argument = s.fileIndex) := by
  cases h with
  | eventPaused hw hp =>
    refine ⟨rfl, hw, fun _ => rfl, fun hf => ?_⟩
    rw [hp] at hf; cases hf
  | eventDispatch order hw hp hperm =>
    refine ⟨rfl, hw, fun ht => ?_, fun _ => ⟨?_, ?_⟩⟩
    · rw [hp] at ht; cases ht
    · rw [List.map_map]
      have : ((fun i : Invocation H => (i.name, i.callback))
          ∘ fun e : Str × H => (⟨e.1, e.2, s.fileIndex⟩ : Invocation H)) = id := by
        funext e; rfl
      rw [this, List.map_id]
      exact hperm
    · intro i hi
      obtain ⟨e, _, rfl⟩ := List.mem_map.mp hi
      rfl

/-- C5. In the step relation of a watched file index (one with a background
watch loop): a run `pauseWatch`, event, `resumeWatch`, event exists; in every
such run the event taken while paused invokes no callback, and the event taken
after `resumeWatch` invokes the registered callbacks, each entry of the
registry once and nothing else, every one of them with the file index itself
as argument. -/
theorem pause_suppresses_callbacks {H : Type} (s : IndexState H) (hw : 0 < s.watchLoops) :
    (∃ s1 s2 s3 s4 calls, Step s .pauseWatch [] s1 ∧ Step s1 .event [] s2
        ∧ Step s2 .resumeWatch [] s3 ∧ Step s3 .event calls s4)
      ∧ ∀ (s1 s2 s3 s4 : IndexState H) (c1 c2 c3 c4 : List (Invocation H)),
          Step s .pauseWatch c1 s1 → Step s1 .event c2 s2 →
          Step s2 .resumeWatch c3 s3 → Step s3 .event c4 s4 →
          c2 = []
            ∧ (c4.map (fun i => (i.name, i.callback))).Perm s.fileIndex.callbacks
            ∧ (∀ e ∈ s.fileIndex.callbacks, ∃ i ∈ c4, i.name = e.1 ∧ i.callback = e.2
                ∧ i.argument = s3.fileIndex) := by
  constructor
  · exact ⟨s.paused, s.paused, s.paused.resumed, s.paused.resumed, _, Step.pauseWatch s,
      Step.eventPaused _ hw rfl, Step.resumeWatch _,
      Step.eventDispatch _ _ hw rfl (List.Perm.refl _)⟩
  · intro s1 s2 s3 s4 c1 c2 c3 c4 hpause hevent hresume hevent'
    cases hpause
    obtain ⟨h2, _, hp, _⟩ := Step_event_inv hevent
    subst h2
    cases hresume
    obtain ⟨_, _, _, hd⟩ := Step_event_inv hevent'
    obtain ⟨hperm, harg⟩ := hd rfl
    refine ⟨hp rfl, hperm, ?_⟩
    intro e he
    have : e ∈ c4.map (fun i => (i.name, i.callback)) := hperm.symm.subset he
    obtain ⟨i, hi, hie⟩ := List.mem_map.mp this
    refine ⟨i, hi, ?_, ?_, harg i hi⟩
    · rw [← hie]
    · rw [← hie]

theorem pause_suppresses_callbacks_witness :
    ∃ s1 s2 s3 s4 calls, Step watchedIndex .pauseWatch [] s1 ∧ Step s1 .event [] s2
      ∧ Step s2 .resumeWatch [] s3 ∧ Step s3 .event calls s4 :=
  (pause_suppresses_callbacks watchedIndex (by decide)).1

theorem GoMap.get_set {H : Type} (m : GoMap H) (name : Str) (v : H) :
    (GoMap.set m name v).get name = some v := by
  simp [GoMap.get, GoMap.set]

theorem GoMap.mem_set {H : Type} (m : GoMap H) (name : Str) (v : H) (e : Str × H) :
    e ∈ GoMap.set m name v ↔ e = (name, v) ∨ (e ∈ m ∧ e.1 ≠ name) := by
  simp [GoMap.set]

theorem RegisterOnChangeCallback_callbacks {H : Type} (ok : Bool) (name : Str) (h : H)
    (s : IndexState H) :
    (RegisterOnChangeCallback ok name h s).fileIndex.callbacks
      = GoMap.set s.fileIndex.callbacks name h := by
  cases hc : s.fileIndex.onChangeCallbacks with
  | none => cases ok <;> simp [RegisterOnChangeCallback, startWatch, hc, FileIndex.callbacks]
  | some m => simp [RegisterOnChangeCallback, hc, FileIndex.callbacks]

/-- C2, amended. After `RegisterOnChangeCallback(name, h1)` followed by
`RegisterOnChangeCallback(name, h2)` the registry entry for `name` is `h2`:
the second handler replaces the first. A later change event taken while the
watch is not paused invokes `h2` under `name`, and every invocation under
`name` is one of `h2`. -/
theorem duplicate_registration_replaces {H : Type} (s : IndexState H) (ok1 ok2 : Bool)
    (name : Str) (h1 h2 : H) :
    (RegisterOnChangeCallback ok2 name h2
        (RegisterOnChangeCallback ok1 name h1 s)).fileIndex.callbacks.get name = some h2
      ∧ ∀ calls s',
          Step (RegisterOnChangeCallback ok2 name h2 (RegisterOnChangeCallback ok1 name h1 s))
            .event calls s' →
          (RegisterOnChangeCallback ok2 name h2
            (RegisterOnChangeCallback ok1 name h1 s)).fileIndex.watchIsPaused = false →
          (∃ i ∈ calls, i.name = name ∧ i.callback = h2)
            ∧ (∀ i ∈ calls, i.name = name → i.callback = h2) := by
  have hcb := RegisterOnChangeCallback_callbacks ok2 name h2
    (RegisterOnChangeCallback ok1 name h1 s)
  refine ⟨?_, ?_⟩
  · rw [hcb, GoMap.get_set]
  · intro calls s' hstep hunpaused
    obtain ⟨_, _, _, hd⟩ := Step_event_inv hstep
    obtain ⟨hperm, _⟩ := hd hunpaused
    rw [hcb] at hperm
    constructor
    · have : (name, h2) ∈ calls.map (fun i => (i.name, i.callback)) :=
        hperm.symm.subset ((GoMap.mem_set _ _ _ _).mpr (Or.inl rfl))
      obtain ⟨i, hi, hie⟩ := List.mem_map.mp this
      simp only [Prod.mk.injEq] at hie
      exact ⟨i, hi, hie.1, hie.2⟩
    · intro i hi hn
      have : (i.name, i.callback) ∈ GoMap.set _ name h2 :=
        hperm.subset (List.mem_map.mpr ⟨i, hi, rfl⟩)
      rcases (GoMap.mem_set _ _ _ _).mp this with h | ⟨_, hne⟩
      · simp only [Prod.mk.injEq] at h
        exact h.2
      · exact absurd hn hne

theorem duplicate_registration_replaces_witness :
    (∃ i ∈ [(⟨"rebuild".toList, 2, twiceRegistered.fileIndex⟩ : Invocation Nat)],
        i.name = "rebuild".toList ∧ i.callback = 2)
      ∧ (∀ i ∈ [(⟨"rebuild".toList, 2, twiceRegistered.fileIndex⟩ : Invocation Nat)],
        i.name = "rebuild".toList → i.callback = 2) :=
  (duplicate_registration_replaces (freshIndex Nat "/repo".toList (fun _ => [])) true true
    "rebuild".toList 1 2).2 _ _
    (Step.eventDispatch twiceRegistered [("rebuild".toList, 2)] (by decide) rfl
      (List.Perm.refl _))
    rfl

/-- C2, counterexample. After registering handler `1` and then handler `2`
under the name `rebuild`, the registry entry for `rebuild` is not `1` but `2`,
and the change event invokes handler `2`. -/
theorem duplicate_registration_not_retained :
    twiceRegistered.fileIndex.callbacks.get "rebuild".toList ≠ some 1
      ∧ twiceRegistered.fileIndex.callbacks.get "rebuild".toList = some 2
      ∧ Step twiceRegistered .event [⟨"rebuild".toList, 2, twiceRegistered.fileIndex⟩]
          twiceRegistered :=
  ⟨by decide, by decide,
    Step.eventDispatch twiceRegistered [("rebuild".toList, 2)] (by decide) rfl
      (List.Perm.refl _)⟩

/-! ## Properties of filepath.Join and of the snapshot builder -/

theorem stringsJoin_snoc (xs : List Str) (n s : Str) :
    stringsJoin (xs ++ [n]) s = stringsJoin (xs ++ [[]]) s ++ n := by
  induction xs with
  | nil => simp [stringsJoin]
  | cons a t ih =>
    cases t with
    | nil => simp [stringsJoin]
    | cons b t =>
      simp only [List.cons_append] at ih ⊢
      rw [stringsJoin, stringsJoin, ih]
      simp

theorem stringsJoin_snoc_nil (xs : List Str) (s : Str) (h : xs ≠ []) :
    stringsJoin (xs ++ [[]]) s = stringsJoin xs s ++ s := by
  induction xs with
  | nil => exact absurd rfl h
  | cons a t ih =>
    cases t with
    | nil => simp [stringsJoin]
    | cons b t =>
      simp only [List.cons_append] at ih ⊢
      rw [stringsJoin, stringsJoin, ih (by simp)]
      simp

theorem pathElements_ne_nil (sep : Char) (s : Str) : pathElements sep s ≠ [] := by
  cases s with
  | nil => simp [pathElements]
  | cons c s =>
    rw [pathElements]
    split
    · simp
    · split <;> simp

theorem pathElements_append (sep : Char) (a b : Str) :
    pathElements sep (a ++ sep :: b) = pathElements sep a ++ pathElements sep b := by
  induction a with
  | nil => simp [pathElements]
  | cons c a ih =>
    rw [List.cons_append, pathElements, pathElements]
    by_cases hc : c = sep
    · simp [hc, ih]
    · simp only [hc, if_false, ih]
      cases hp : pathElements sep a with
      | nil => exact absurd hp (pathElements_ne_nil sep a)
      | cons e es => simp

theorem pathElements_of_not_mem (sep : Char) (e : Str) (h : sep ∉ e) :
    pathElements sep e = [e] := by
  induction e with
  | nil => simp [pathElements]
  | cons c e ih =>
    rw [pathElements]
    have hc : c ≠ sep := fun hc => h (by simp [hc])
    have he : sep ∉ e := fun he => h (List.mem_cons_of_mem _ he)
    simp [hc, ih he]

theorem pathElements_not_mem (sep : Char) (s : Str) : ∀ e ∈ pathElements sep s, sep ∉ e := by
  induction s with
  | nil => simp [pathElements]
  | cons c s ih =>
    rw [pathElements]
    by_cases hc : c = sep
    · simp only [hc, if_true]
      intro e he
      rcases List.mem_cons.mp he with rfl | he
      · simp
      · exact ih e he
    · simp only [hc, if_false]
      cases hp : pathElements sep s with
      | nil => exact absurd hp (pathElements_ne_nil sep s)
      | cons e' es =>
        rw [hp] at ih
        intro e he
        rcases List.mem_cons.mp he with rfl | he
        · intro hm
          rcases List.mem_cons.mp hm with h | h
          · exact hc h.symm
          · exact ih e' (List.mem_cons_self _ _) h
        · exact ih e (List.mem_cons_of_mem _ he)

theorem pathElements_stringsJoin (sep : Char) (xs : List Str) (hne : xs ≠ [])
    (h : ∀ e ∈ xs, sep ∉ e) : pathElements sep (stringsJoin xs [sep]) = xs := by
  induction xs with
  | nil => exact absurd rfl hne
  | cons a t ih =>
    cases t with
    | nil => simpa [stringsJoin] using pathElements_of_not_mem sep a (h a (by simp))
    | cons b t =>
      rw [stringsJoin, List.append_assoc, List.singleton_append, pathElements_append,
        ih (by simp) (fun e he => h e (List.mem_cons_of_mem _ he)),
        pathElements_of_not_mem sep a (h a (by simp))]
      rfl

theorem cleanElement_real (rooted : Bool) (out : List Str) (e : Str) (h : realElement e) :
    cleanElement rooted out e = out ++ [e] := by
  obtain ⟨h1, h2, h3⟩ := h
  simp [cleanElement, h1, h2, h3]

theorem foldl_cleanElement_real (rooted : Bool) (normal : List Str)
    (h : ∀ e ∈ normal, realElement e) (out : List Str) :
    normal.foldl (cleanElement rooted) out = out ++ normal := by
  induction normal generalizing out with
  | nil => simp
  | cons e t ih =>
    rw [List.foldl_cons, cleanElement_real rooted out e (h e (by simp)),
      ih (fun x hx => h x (List.mem_cons_of_mem _ hx))]
    simp

theorem cleanElement_dotdot (k : Nat) :
    cleanElement false (List.replicate k ['.', '.']) ['.', '.']
      = List.replicate (k + 1) ['.', '.'] := by
  cases k with
  | zero => simp [cleanElement]
  | succ k =>
    have : (List.replicate (k + 1) ['.', '.']).getLast? = some ['.', '.'] := by
      rw [List.replicate_succ']; simp
    simp only [cleanElement, this]
    simp [← List.replicate_succ']

theorem foldl_cleanElement_dotdots (normal : List Str) (h : ∀ e ∈ normal, realElement e)
    (k j : Nat) :
    (List.replicate k ['.', '.'] ++ normal).foldl (cleanElement false)
        (List.replicate j ['.', '.'])
      = List.replicate (j + k) ['.', '.'] ++ normal := by
  induction k generalizing j with
  | zero => simp [foldl_cleanElement_real false normal h]
  | succ k ih =>
    rw [List.replicate_succ, List.cons_append, List.foldl_cons, cleanElement_dotdot, ih (j + 1)]
    congr 2
    omega

theorem foldl_cleanElement_stable (rooted : Bool) (out : List Str) (h : CleanStack rooted out) :
    out.foldl (cleanElement rooted) [] = out := by
  obtain ⟨k, normal, rfl, hk, hn⟩ := h
  cases rooted with
  | true =>
    rw [hk rfl]
    simpa using foldl_cleanElement_real true normal hn []
  | false =>
    simpa using foldl_cleanElement_dotdots normal hn k 0

theorem CleanStack.snoc {rooted : Bool} {out : List Str} (h : CleanStack rooted out) (e : Str)
    (he : realElement e) : CleanStack rooted (out ++ [e]) := by
  obtain ⟨k, normal, rfl, hk, hn⟩ := h
  refine ⟨k, normal ++ [e], by simp, hk, ?_⟩
  intro x hx
  rcases List.mem_append.mp hx with hx | hx
  · exact hn x hx
  · rw [List.mem_singleton.mp hx]; exact he

theorem CleanStack.cleanElement {rooted : Bool} {out : List Str} (h : CleanStack rooted out)
    (el : Str) : CleanStack rooted (cleanElement rooted out el) := by
  unfold Allmark.cleanElement
  by_cases h1 : el = [] ∨ el = ['.']
  · rw [if_pos h1]; exact h
  · rw [if_neg h1]
    by_cases h2 : el = ['.', '.']
    · rw [if_pos h2]
      obtain ⟨k, normal, rfl, hk, hn⟩ := h
      rcases List.eq_nil_or_concat normal with hnil | ⟨init, last, hc⟩
      · subst hnil
        cases k with
        | zero =>
          simp only [List.replicate_zero, List.append_nil, List.getLast?_nil]
          cases rooted with
          | true => exact ⟨0, [], by simp, fun _ => rfl, by simp⟩
          | false => exact ⟨1, [], by simp [h2], by simp, by simp⟩
        | succ k =>
          have hl : (List.replicate (k + 1) ['.', '.'] ++ ([] : List Str)).getLast?
              = some ['.', '.'] := by
            rw [List.append_nil, List.replicate_succ']; simp
          simp only [hl, if_true]
          refine ⟨k + 2, [], ?_, ?_, by simp⟩
          · rw [h2, List.append_nil, List.append_nil]
            exact (List.replicate_succ' (k + 1) ['.', '.']).symm
          · intro hr; exact absurd (hk hr) (by omega)
      · rw [List.concat_eq_append] at hc
        subst hc
        have hl : (List.replicate k ['.', '.'] ++ (init ++ [last])).getLast? = some last := by
          rw [← List.append_assoc]; simp
        have hlast : last ≠ ['.', '.'] := (hn last (by simp)).2.2
        simp only [hl, hlast, if_false]
        refine ⟨k, init, ?_, hk, fun e he => hn e (by simp [he])⟩
        rw [← List.append_assoc, List.dropLast_concat]
    · rw [if_neg h2]
      exact h.snoc el ⟨fun e => h1 (Or.inl e), fun e => h1 (Or.inr e), h2⟩

theorem cleanElement_mem (rooted : Bool) (out : List Str) (el : Str) :
    ∀ e ∈ cleanElement rooted out el, e ∈ out ∨ e = el := by
  intro e he
  unfold cleanElement at he
  split at he
  · exact Or.inl he
  · split at he
    · split at he
      · split at he
        · rcases List.mem_append.mp he with h | h
          · exact Or.inl h
          · exact Or.inr (List.mem_singleton.mp h)
        · exact Or.inl (List.mem_of_mem_dropLast he)
      · split at he
        · exact Or.inl he
        · rcases List.mem_append.mp he with h | h
          · exact Or.inl h
          · exact Or.inr (List.mem_singleton.mp h)
    · rcases List.mem_append.mp he with h | h
      · exact Or.inl h
      · exact Or.inr (List.mem_singleton.mp h)

theorem foldl_cleanElement_inv (rooted : Bool) (els out : List Str)
    (h : CleanStack rooted out) :
    CleanStack rooted (els.foldl (cleanElement rooted) out)
      ∧ ∀ e ∈ els.foldl (cleanElement rooted) out, e ∈ out ∨ e ∈ els := by
  induction els generalizing out with
  | nil => exact ⟨h, fun e he => Or.inl he⟩
  | cons el t ih =>
    rw [List.foldl_cons]
    obtain ⟨h1, h2⟩ := ih (cleanElement rooted out el) (h.cleanElement el)
    refine ⟨h1, fun e he => ?_⟩
    rcases h2 e he with h3 | h3
    · rcases cleanElement_mem rooted out el e h3 with h4 | h4
      · exact Or.inl h4
      · exact Or.inr (by simp [h4])
    · exact Or.inr (List.mem_cons_of_mem _ h3)

theorem cleanElements_inv (sep : Char) (path : Str) :
    CleanStack (path.head? == some sep) (cleanElements sep path)
      ∧ ∀ e ∈ cleanElements sep path, sep ∉ e := by
  obtain ⟨h1, h2⟩ := foldl_cleanElement_inv (path.head? == some sep) (pathElements sep path) []
    ⟨0, [], by simp, fun _ => rfl, by simp⟩
  refine ⟨h1, fun e he => ?_⟩
  rcases h2 e he with h | h
  · simp at h
  · exact pathElements_not_mem sep path e h

theorem validName_iff (sep : Char) (n : Str) :
    validName sep n = true ↔ n ≠ [] ∧ sep ∉ n ∧ n ≠ ['.'] ∧ n ≠ ['.', '.'] := by
  simp [validName]

theorem validName_real {sep : Char} {n : Str} (h : validName sep n = true) : realElement n :=
  have h' := (validName_iff sep n).mp h
  ⟨h'.1, h'.2.2.1, h'.2.2.2⟩

theorem CleanStack.ne_nil {rooted : Bool} {out : List Str} (h : CleanStack rooted out) :
    ∀ e ∈ out, e ≠ [] := by
  obtain ⟨k, normal, rfl, _, hn⟩ := h
  intro e he
  rcases List.mem_append.mp he with h1 | h1
  · rw [(List.mem_replicate.mp h1).2]; simp
  · exact (hn e h1).1

theorem stringsJoin_head (sep : Char) (xs : List Str) (hne : xs ≠ [])
    (h1 : ∀ e ∈ xs, e ≠ []) (h2 : ∀ e ∈ xs, sep ∉ e) :
    stringsJoin xs [sep] ≠ [] ∧ (stringsJoin xs [sep]).head? ≠ some sep := by
  cases xs with
  | nil => exact absurd rfl hne
  | cons a t =>
    have ha : a ≠ [] := h1 a (by simp)
    have hs : sep ∉ a := h2 a (by simp)
    cases a with
    | nil => exact absurd rfl ha
    | cons c a =>
      have hc : c ≠ sep := fun e => hs (by simp [e])
      cases t with
      | nil => simp [stringsJoin, hc]
      | cons b t => simp [stringsJoin, hc]

theorem joinElements_head (sep : Char) (rooted : Bool) (xs : List Str) (hne : xs ≠ [])
    (h1 : ∀ e ∈ xs, e ≠ []) (h2 : ∀ e ∈ xs, sep ∉ e) :
    joinElements sep rooted xs ≠ []
      ∧ ((joinElements sep rooted xs).head? == some sep) = rooted := by
  obtain ⟨h3, h4⟩ := stringsJoin_head sep xs hne h1 h2
  cases rooted with
  | true => simp [joinElements]
  | false =>
    simp only [joinElements, Bool.false_eq_true, if_false, List.nil_append]
    exact ⟨h3, by simpa using h4⟩

theorem cleanElements_joinElements (sep : Char) (rooted : Bool) (xs : List Str)
    (hne : xs ≠ []) (hs : CleanStack rooted xs) (h2 : ∀ e ∈ xs, sep ∉ e) :
    cleanElements sep (joinElements sep rooted xs) = xs := by
  unfold cleanElements
  rw [(joinElements_head sep rooted xs hne hs.ne_nil h2).2]
  cases rooted with
  | true =>
    have : joinElements sep true xs = [] ++ sep :: stringsJoin xs [sep] := by
      simp [joinElements]
    rw [this, pathElements_append, pathElements_stringsJoin sep xs hne h2]
    simp only [pathElements, List.singleton_append, List.foldl_cons]
    have : cleanElement true [] [] = [] := by simp [cleanElement]
    rw [this]
    exact foldl_cleanElement_stable true xs hs
  | false =>
    have : joinElements sep false xs = stringsJoin xs [sep] := by
      simp [joinElements]
    rw [this, pathElements_stringsJoin sep xs hne h2]
    exact foldl_cleanElement_stable false xs hs

theorem joinPrefix_joinElements (sep : Char) (rooted : Bool) (xs : List Str)
    (hne : xs ≠ []) (hs : CleanStack rooted xs) (h2 : ∀ e ∈ xs, sep ∉ e) :
    joinPrefix sep (joinElements sep rooted xs) = joinElements sep rooted xs ++ [sep] := by
  obtain ⟨h3, h4⟩ := joinElements_head sep rooted xs hne hs.ne_nil h2
  unfold joinPrefix
  rw [if_neg h3, h4, cleanElements_joinElements sep rooted xs hne hs h2]
  unfold joinElements
  rw [stringsJoin_snoc_nil xs [sep] hne, List.append_assoc]

theorem filepathJoin_form (sep : Char) (d n : Str) (hn : validName sep n = true) :
    ∃ rooted st, CleanStack rooted st ∧ (∀ e ∈ st, sep ∉ e)
      ∧ filepathJoin sep d n = joinElements sep rooted (st ++ [n])
      ∧ joinPrefix sep d = joinElements sep rooted (st ++ [[]]) := by
  have hv := (validName_iff sep n).mp hn
  have hreal := validName_real hn
  by_cases hd : d = []
  · subst hd
    refine ⟨false, [], ⟨0, [], by simp, by simp, by simp⟩, by simp, ?_, ?_⟩
    · have hhead : (n.head? == some sep) = false := by
        cases n with
        | nil => exact absurd rfl hv.1
        | cons c n =>
          have : c ≠ sep := fun e => hv.2.1 (by simp [e])
          simp [this]
      have hce : cleanElements sep n = [n] := by
        unfold cleanElements
        rw [pathElements_of_not_mem sep n hv.2.1, hhead]
        simp [cleanElement_real false [] n hreal]
      simp [filepathJoin, filepathClean, hv.1, hhead, hce, joinElements, stringsJoin]
    · simp [joinPrefix, joinElements, stringsJoin]
  · obtain ⟨hs, hmem⟩ := cleanElements_inv sep d
    refine ⟨d.head? == some sep, cleanElements sep d, hs, hmem, ?_, ?_⟩
    · have hhead : (d ++ sep :: n).head? = d.head? := by
        cases d with
        | nil => exact absurd rfl hd
        | cons c d => rfl
      have hce : cleanElements sep (d ++ sep :: n) = cleanElements sep d ++ [n] := by
        unfold cleanElements
        rw [pathElements_append, pathElements_of_not_mem sep n hv.2.1, hhead,
          List.foldl_append]
        simp [cleanElement_real _ _ n hreal]
      have hne : joinElements sep (d.head? == some sep) (cleanElements sep d ++ [n]) ≠ [] := by
        unfold joinElements
        rw [stringsJoin_snoc]
        intro h
        have := congrArg List.length h
        simp at this
        exact hv.1 this.2.2
      simp only [filepathJoin, ne_eq, hd, not_false_eq_true, if_true, filepathClean,
        List.append_eq_nil, false_and, if_false, hhead, hce]
      rw [if_neg hne]
    · simp [joinPrefix, hd]

theorem filepathJoin_eq (sep : Char) (d n : Str) (hn : validName sep n = true) :
    filepathJoin sep d n = joinPrefix sep d ++ n := by
  obtain ⟨rooted, st, _, _, h1, h2⟩ := filepathJoin_form sep d n hn
  rw [h1, h2]
  unfold joinElements
  rw [stringsJoin_snoc, List.append_assoc]

theorem joinPrefix_filepathJoin (sep : Char) (d n : Str) (hn : validName sep n = true) :
    joinPrefix sep (filepathJoin sep d n) = filepathJoin sep d n ++ [sep] := by
  obtain ⟨rooted, st, hs, hmem, h1, _⟩ := filepathJoin_form sep d n hn
  rw [h1]
  apply joinPrefix_joinElements sep rooted (st ++ [n]) (by simp)
    (hs.snoc n (validName_real hn))
  intro e he
  rcases List.mem_append.mp he with h | h
  · exact hmem e h
  · rw [List.mem_singleton.mp h]; exact ((validName_iff sep n).mp hn).2.1

theorem name_eq_of_append_eq (sep : Char) :
    ∀ (n n' x x' : Str), sep ∉ n → sep ∉ n' → (x = [] ∨ x.head? = some sep) →
      (x' = [] ∨ x'.head? = some sep) → n ++ x = n' ++ x' → n = n'
  | [], [], _, _, _, _, _, _, _ => rfl
  | [], c :: t, x, x', _, h2, hx, _, h => by
    exfalso
    rw [List.nil_append] at h
    rcases hx with hx | hx
    · rw [hx] at h; simp at h
    · rw [h] at hx
      simp only [List.cons_append, List.head?_cons, Option.some.injEq] at hx
      exact h2 (by simp [hx])
  | c :: t, [], x, x', h1, _, _, hx', h => by
    exfalso
    rw [List.nil_append] at h
    rcases hx' with hx | hx
    · rw [hx] at h; simp at h
    · rw [← h] at hx
      simp only [List.cons_append, List.head?_cons, Option.some.injEq] at hx
      exact h1 (by simp [hx])
  | c :: t, c' :: t', x, x', h1, h2, hx, hx', h => by
    simp only [List.cons_append, List.cons.injEq] at h
    have := name_eq_of_append_eq sep t t' x x' (fun m => h1 (List.mem_cons_of_mem _ m))
      (fun m => h2 (List.mem_cons_of_mem _ m)) hx hx' h.2
    rw [h.1, this]

theorem all_dir (p : DirEntry → Bool) (n : Str) (r : Bool) (es : List DirEntry) :
    DirEntry.all p (.dir n r es) = true ↔
      p (.dir n r es) = true ∧ DirEntry.all.list p es = true := by
  simp [DirEntry.all]

theorem all_list_cons (p : DirEntry → Bool) (e : DirEntry) (es : List DirEntry) :
    DirEntry.all.list p (e :: es) = true ↔
      DirEntry.all p e = true ∧ DirEntry.all.list p es = true := by
  simp [DirEntry.all.list]

mutual
/-- Every path below `directory` is the join prefix of `directory`, the name of
one of the listed entries, and then nothing or a separator and more. -/
theorem entriesBelow_shape (sep : Char) :
    ∀ (d : Str) (e : DirEntry), DirEntry.all (DirEntry.validNames sep) e = true →
      ∀ p ∈ (entriesBelow sep d e).map Prod.fst,
        ∃ c ∈ e.entries, ∃ x, p = joinPrefix sep d ++ c.Name ++ x
          ∧ (x = [] ∨ x.head? = some sep)
  | _, .file _, _, p, hp => by simp [entriesBelow] at hp
  | d, .dir n r es, hall, p, hp => by
    have h := (all_dir _ n r es).mp hall
    have hvs : ∀ c ∈ es, validName sep c.Name = true := by
      simpa [DirEntry.validNames, DirEntry.entries] using h.1
    rw [entriesBelow] at hp
    exact entriesBelow_shape_list sep d es hvs h.2 p hp
/-- The same for a listing. -/
theorem entriesBelow_shape_list (sep : Char) :
    ∀ (d : Str) (es : List DirEntry),
      (∀ c ∈ es, validName sep c.Name = true) →
      DirEntry.all.list (DirEntry.validNames sep) es = true →
      ∀ p ∈ (entriesBelow.list sep d es).map Prod.fst,
        ∃ c ∈ es, ∃ x, p = joinPrefix sep d ++ c.Name ++ x ∧ (x = [] ∨ x.head? = some sep)
  | _, [], _, _, p, hp => by simp [entriesBelow.list] at hp
  | d, c :: rest, hv, hall, p, hp => by
    have hall' := (all_list_cons _ c rest).mp hall
    have hvc : validName sep c.Name = true := hv c (by simp)
    rw [entriesBelow.list, List.map_append, List.map_cons, List.mem_append,
      List.mem_cons] at hp
    rcases hp with (hp | hp) | hp
    · exact ⟨c, by simp, [], by rw [hp, filepathJoin_eq sep d c.Name hvc]; simp, Or.inl rfl⟩
    · obtain ⟨c', _, x, hx, _⟩ := entriesBelow_shape sep (filepathJoin sep d c.Name) c
        hall'.1 p hp
      refine ⟨c, by simp, sep :: (c'.Name ++ x), ?_, Or.inr rfl⟩
      rw [hx, joinPrefix_filepathJoin sep d c.Name hvc, filepathJoin_eq sep d c.Name hvc]
      simp
    · obtain ⟨c', hc', x, hx⟩ := entriesBelow_shape_list sep d rest
        (fun c' h => hv c' (List.mem_cons_of_mem _ h)) hall'.2 p hp
      exact ⟨c', List.mem_cons_of_mem _ hc', x, hx⟩
end

theorem entriesBelow_block (sep : Char) (d : Str) (c : DirEntry)
    (hvc : validName sep c.Name = true)
    (hall : DirEntry.all (DirEntry.validNames sep) c = true) :
    ∀ p ∈ (entriesBelow sep (filepathJoin sep d c.Name) c).map Prod.fst,
      ∃ y, p = filepathJoin sep d c.Name ++ sep :: y := by
  intro p hp
  obtain ⟨c', _, x, hx, _⟩ := entriesBelow_shape sep (filepathJoin sep d c.Name) c hall p hp
  refine ⟨c'.Name ++ x, ?_⟩
  rw [hx, joinPrefix_filepathJoin sep d c.Name hvc]
  simp

mutual
/-- No path occurs twice below a directory whose listings hold distinct
names. -/
theorem entriesBelow_nodup (sep : Char) :
    ∀ (d : Str) (e : DirEntry), DirEntry.all (DirEntry.validNames sep) e = true →
      DirEntry.all DirEntry.distinctNames e = true →
      ((entriesBelow sep d e).map Prod.fst).Nodup
  | _, .file _, _, _ => by simp [entriesBelow]
  | d, .dir n r es, hall, hdist => by
    have h := (all_dir _ n r es).mp hall
    have h' := (all_dir _ n r es).mp hdist
    have hvs : ∀ c ∈ es, validName sep c.Name = true := by
      simpa [DirEntry.validNames, DirEntry.entries] using h.1
    have hnd : (es.map DirEntry.Name).Nodup := by
      simpa [DirEntry.distinctNames, DirEntry.entries] using h'.1
    rw [entriesBelow]
    exact entriesBelow_nodup_list sep d es hvs hnd h.2 h'.2
/-- The same for a listing. -/
theorem entriesBelow_nodup_list (sep : Char) :
    ∀ (d : Str) (es : List DirEntry),
      (∀ c ∈ es, validName sep c.Name = true) →
      (es.map DirEntry.Name).Nodup →
      DirEntry.all.list (DirEntry.validNames sep) es = true →
      DirEntry.all.list DirEntry.distinctNames es = true →
      ((entriesBelow.list sep d es).map Prod.fst).Nodup
  | _, [], _, _, _, _ => by simp [entriesBelow.list]
  | d, c :: rest, hv, hnd, hall, hdist => by
    have hall' := (all_list_cons _ c rest).mp hall
    have hdist' := (all_list_cons _ c rest).mp hdist
    have hvc : validName sep c.Name = true := hv c (by simp)
    have hsep : sep ∉ c.Name := ((validName_iff sep c.Name).mp hvc).2.1
    rw [List.map_cons, List.nodup_cons] at hnd
    have ih1 := entriesBelow_nodup sep (filepathJoin sep d c.Name) c hall'.1 hdist'.1
    have ih2 := entriesBelow_nodup_list sep d rest
      (fun c' h => hv c' (List.mem_cons_of_mem _ h)) hnd.2 hall'.2 hdist'.2
    have hblock := entriesBelow_block sep d c hvc hall'.1
    rw [entriesBelow.list, List.map_append, List.map_cons, List.nodup_append,
      List.nodup_cons]
    refine ⟨⟨?_, ih1⟩, ih2, ?_⟩
    · intro hmem
      obtain ⟨y, hy⟩ := hblock _ hmem
      have := congrArg List.length hy
      simp at this
    · intro a ha hb
      obtain ⟨c', hc', x', hx', hx'2⟩ := entriesBelow_shape_list sep d rest
        (fun c' h => hv c' (List.mem_cons_of_mem _ h)) hall'.2 a hb
      have hsep' : sep ∉ c'.Name :=
        ((validName_iff sep c'.Name).mp (hv c' (List.mem_cons_of_mem _ hc'))).2.1
      have hform : ∃ x, a = joinPrefix sep d ++ c.Name ++ x
          ∧ (x = [] ∨ x.head? = some sep) := by
        rcases List.mem_cons.mp ha with h | h
        · exact ⟨[], by rw [h, filepathJoin_eq sep d c.Name hvc]; simp, Or.inl rfl⟩
        · obtain ⟨y, hy⟩ := hblock a h
          exact ⟨sep :: y, by rw [hy, filepathJoin_eq sep d c.Name hvc], Or.inr rfl⟩
      obtain ⟨x, hx, hx2⟩ := hform
      rw [hx, List.append_assoc, List.append_assoc] at hx'
      have hname := name_eq_of_append_eq sep c.Name c'.Name x x' hsep hsep' hx2 hx'2
        (List.append_cancel_left hx')
      apply hnd.1
      rw [hname]
      exact List.mem_map_of_mem _ hc'
end

theorem getFiles_loop_eq (sep : Char) (directory : Str) (entries : List DirEntry)
    (files : List File) :
    getFiles.loop sep directory entries files
      = files ++ entries.flatMap (entryFiles sep directory) := by
  induction entries generalizing files with
  | nil => simp [getFiles.loop]
  | cons e rest ih =>
    rw [getFiles.loop]
    by_cases h : e.IsDir = true
    · simp [h, ih, entryFiles]
    · simp [h, ih, entryFiles]

theorem getFiles_readable (sep : Char) (directory name : Str) (entries : List DirEntry) :
    getFiles sep directory (.dir name true entries)
      = entries.flatMap (entryFiles sep directory) := by
  rw [getFiles, getFiles_loop_eq, List.nil_append]

mutual
/-- With every directory readable, the files found are the entries of the tree
that are not directories, in the order of the walk. -/
theorem getFiles_eq_entries (sep : Char) :
    ∀ (d : Str) (e : DirEntry), DirEntry.all DirEntry.readableDir e = true →
      getFiles sep d e
        = ((entriesBelow sep d e).filter (fun x => !x.2.IsDir)).map (fun x => NewFile x.1)
  | _, .file _, _ => by simp [getFiles, entriesBelow]
  | d, .dir n false es, h => by simp [DirEntry.all, DirEntry.readableDir] at h
  | d, .dir n true es, h => by
    rw [getFiles_readable, entriesBelow]
    exact getFiles_eq_entries_list sep d es ((all_dir _ n true es).mp h).2
/-- The same for a listing. -/
theorem getFiles_eq_entries_list (sep : Char) :
    ∀ (d : Str) (es : List DirEntry), DirEntry.all.list DirEntry.readableDir es = true →
      es.flatMap (entryFiles sep d)
        = ((entriesBelow.list sep d es).filter (fun x => !x.2.IsDir)).map
            (fun x => NewFile x.1)
  | _, [], _ => by simp [entriesBelow.list]
  | d, e :: rest, h => by
    have h' := (all_list_cons _ e rest).mp h
    have ih1 := getFiles_eq_entries sep (filepathJoin sep d e.Name) e h'.1
    have ih2 := getFiles_eq_entries_list sep d rest h'.2
    rw [List.flatMap_cons, ih2, entriesBelow.list, List.filter_append, List.map_append,
      List.filter_cons]
    cases e with
    | file n =>
      simp only [entryFiles, DirEntry.IsDir, DirEntry.Name, entriesBelow, Bool.false_eq_true,
        if_false, Bool.not_false, if_true, List.filter_nil, List.map_cons, List.map_nil]
    | dir n r es =>
      have hf : entryFiles sep d (.dir n r es)
          = getFiles sep (filepathJoin sep d n) (.dir n r es) := by
        simp only [entryFiles, DirEntry.IsDir, DirEntry.Name, if_true]
      simp only [DirEntry.Name] at ih1
      rw [hf, ih1]
      simp only [DirEntry.IsDir, DirEntry.Name, Bool.not_true, Bool.false_eq_true, if_false]
end

mutual
/-- With every directory readable, as many files are found as the tree has
entries that are not directories. -/
theorem getFiles_length (sep : Char) :
    ∀ (d : Str) (e : DirEntry), DirEntry.all DirEntry.readableDir e = true →
      (getFiles sep d e).length = countFiles e
  | _, .file _, _ => by simp [getFiles, countFiles]
  | d, .dir n false es, h => by simp [DirEntry.all, DirEntry.readableDir] at h
  | d, .dir n true es, h => by
    rw [getFiles_readable, countFiles]
    exact getFiles_length_list sep d es ((all_dir _ n true es).mp h).2
/-- The same for a listing. -/
theorem getFiles_length_list (sep : Char) :
    ∀ (d : Str) (es : List DirEntry), DirEntry.all.list DirEntry.readableDir es = true →
      (es.flatMap (entryFiles sep d)).length = countFiles.list es
  | _, [], _ => by simp [countFiles.list]
  | d, e :: rest, h => by
    have h' := (all_list_cons _ e rest).mp h
    have ih1 := getFiles_length sep (filepathJoin sep d e.Name) e h'.1
    have ih2 := getFiles_length_list sep d rest h'.2
    rw [List.flatMap_cons, List.length_append, ih2, countFiles.list]
    by_cases hd : e.IsDir = true
    · simp [entryFiles, hd, ih1]
    · simp [entryFiles, hd]
end

theorem eq_of_nodup_map {α β : Type} (f : α → β) (l : List α) (h : (l.map f).Nodup)
    (a b : α) (ha : a ∈ l) (hb : b ∈ l) (hab : f a = f b) : a = b := by
  induction l with
  | nil => simp at ha
  | cons x l ih =>
    rw [List.map_cons, List.nodup_cons] at h
    rcases List.mem_cons.mp ha with ha1 | ha1
    · rcases List.mem_cons.mp hb with hb1 | hb1
      · rw [ha1, hb1]
      · exfalso; apply h.1; rw [← ha1, hab]; exact List.mem_map_of_mem f hb1
    · rcases List.mem_cons.mp hb with hb1 | hb1
      · exfalso; apply h.1; rw [← hb1, ← hab]; exact List.mem_map_of_mem f ha1
      · exact ih h.2 ha1 hb1

/-- C4. For a tree in which every directory is readable and the names within
one directory are distinct (names being names a listing can hold),
`getFiles(root)` returns as many files as the tree has entries that are not
directories, namely one file for each such entry, in the order of the walk; no
path occurs twice; no path of a directory is among them; and `Items()` of a
freshly built index returns the same. -/
theorem getFiles_complete (sep : Char) (directory : Str) (root : DirEntry)
    (hread : root.all DirEntry.readableDir = true)
    (hdist : root.all DirEntry.distinctNames = true)
    (hnames : root.all (DirEntry.validNames sep) = true) :
    (getFiles sep directory root).length = countFiles root
      ∧ getFiles sep directory root
          = ((entriesBelow sep directory root).filter (fun x => !x.2.IsDir)).map
              (fun x => NewFile x.1)
      ∧ ((getFiles sep directory root).map File.Path).Nodup
      ∧ (∀ x ∈ entriesBelow sep directory root, x.2.IsDir = true →
          x.1 ∉ (getFiles sep directory root).map File.Path)
      ∧ (∀ (H : Type) (newWatcherOk : Bool) (closure : (Unit → List File) → H),
          (NewFileIndex sep newWatcherOk closure directory root).fileIndex.Items ()
            = getFiles sep directory root) := by
  have heq := getFiles_eq_entries sep directory root hread
  have hnd := entriesBelow_nodup sep directory root hnames hdist
  have hpaths : (getFiles sep directory root).map File.Path
      = ((entriesBelow sep directory root).filter (fun x => !x.2.IsDir)).map Prod.fst := by
    rw [heq, List.map_map]
    rfl
  refine ⟨getFiles_length sep directory root hread, heq, ?_, ?_, ?_⟩
  · rw [hpaths]
    exact (List.Sublist.map _ (List.filter_sublist _)).nodup hnd
  · intro x hx hdir hmem
    rw [hpaths] at hmem
    obtain ⟨y, hy, hxy⟩ := List.mem_map.mp hmem
    have hy' := List.mem_filter.mp hy
    have : y = x := eq_of_nodup_map Prod.fst _ hnd y x hy'.1 hx hxy
    rw [this, hdir] at hy'
    simp at hy'
  · intro H ok closure
    cases ok <;> rfl

theorem getFiles_complete_witness :
    (getFiles '/' "/repo".toList repoTree).length = 4
      ∧ ((getFiles '/' "/repo".toList repoTree).map File.Path).Nodup :=
  ⟨(getFiles_complete '/' "/repo".toList repoTree (by decide) (by decide) (by decide)).1,
    (getFiles_complete '/' "/repo".toList repoTree (by decide) (by decide) (by decide)).2.2.1⟩

/-- C9. `getFiles` is total. For a directory that cannot be read it returns
the empty sequence. For a readable directory it returns the concatenation, in
listing order, of what each entry contributes: the file itself for a file,
`getFiles(sub)` for a sub-directory. So an unreadable sub-directory
contributes nothing, while every file of the directory and everything found in
the other entries is still returned. -/
theorem getFiles_partial_walk (sep : Char) (directory name : Str)
    (entries : List DirEntry) :
    getFiles sep directory (.dir name false entries) = []
      ∧ getFiles sep directory (.dir name true entries)
          = entries.flatMap (entryFiles sep directory)
      ∧ (∀ before after : List DirEntry, ∀ sub : Str, ∀ below : List DirEntry,
          entries = before ++ .dir sub false below :: after →
          getFiles sep directory (.dir name true entries)
            = before.flatMap (entryFiles sep directory)
              ++ after.flatMap (entryFiles sep directory))
      ∧ (∀ entry ∈ entries, entry.IsDir = false →
          NewFile (filepathJoin sep directory entry.Name)
            ∈ getFiles sep directory (.dir name true entries))
      ∧ (∀ entry ∈ entries, ∀ file ∈ entryFiles sep directory entry,
          file ∈ getFiles sep directory (.dir name true entries)) := by
  refine ⟨by rw [getFiles], getFiles_readable sep directory name entries, ?_, ?_, ?_⟩
  · intro before after sub below h
    rw [getFiles_readable, h, List.flatMap_append, List.flatMap_cons]
    have : entryFiles sep directory (.dir sub false below) = [] := by
      simp [entryFiles, DirEntry.IsDir, getFiles]
    rw [this, List.nil_append]
  · intro entry he hfile
    rw [getFiles_readable, List.mem_flatMap]
    exact ⟨entry, he, by simp [entryFiles, hfile]⟩
  · intro entry he file hf
    rw [getFiles_readable, List.mem_flatMap]
    exact ⟨entry, he, hf⟩

theorem getFiles_partial_walk_witness :
    getFiles '/' "/repo".toList lockedTree
      = [NewFile "/repo/a.txt".toList, NewFile "/repo/sub/b.txt".toList] :=
  ((getFiles_partial_walk '/' "/repo".toList "repo".toList
      [ .file "a.txt".toList,
        .dir "locked".toList false [.file "hidden.txt".toList],
        .dir "sub".toList true
          [ .dir "private".toList false [.file "key".toList],
            .file "b.txt".toList ] ]).2.2.1
    [.file "a.txt".toList] _ _ _ rfl).trans (by decide)

end Allmark
